import Mathlib

/-!
Verification of the OSM band-pass biquad filter (`src/math/bandpass.h`).

The repository ships only the header `bandpass.h`, which fixes the class
shape: `class BandPass : public math::BiQuad` with members
`float m_frequency; float m_q; unsigned m_sampleRate;`, a constructor
`BandPass(float frequency = 0, float q = 1, unsigned sampleRate = 0)`,
setters `setFrequency`, `setSampleRate`, `setQ`, and `calculate()`.
The bodies of these member functions and the `BiQuad` base live outside
the repository snapshot, so they are modelled from the specification
(§4.1 for the coefficient design, §4.2 for the base-filter contract).

Real-valued `float` arithmetic is modelled by exact real arithmetic on ℝ;
a separate extended-value type `FVal` (finite / +∞ / −∞ / NaN) models the
IEEE-754 special values that the degenerate-input clauses of the
specification talk about.
-/

namespace math

/-- Modelled from the spec: the generic biquad base filter (`biquad.h` is
not in the repository snapshot).  Per §4.2 it owns five coefficients
(three feed-forward, two feedback) and four history registers (two past
inputs, two past outputs). -/
structure BiQuad where
  b0 : ℝ
  b1 : ℝ
  b2 : ℝ
  a1 : ℝ
  a2 : ℝ
  x1 : ℝ
  x2 : ℝ
  y1 : ℝ
  y2 : ℝ

/-- Modelled from the spec (§4.2): `setCoefficients` replaces the
coefficient set and touches nothing else. -/
def BiQuad.setCoefficients (f : BiQuad) (b0 b1 b2 a1 a2 : ℝ) : BiQuad :=
  { f with b0 := b0, b1 := b1, b2 := b2, a1 := a1, a2 := a2 }

/-- Modelled from the spec (§4.2): `process` applies
`y[n] = b0·x[n] + b1·x[n-1] + b2·x[n-2] − a1·y[n-1] − a2·y[n-2]`
and shifts the two input and two output history registers. -/
def BiQuad.process (f : BiQuad) (x : ℝ) : BiQuad × ℝ :=
  let y := f.b0 * x + f.b1 * f.x1 + f.b2 * f.x2 - f.a1 * f.y1 - f.a2 * f.y2
  ({ f with x1 := x, x2 := f.x1, y1 := y, y2 := f.y1 }, y)

/-- The band-pass filter state: `class BandPass : public math::BiQuad` with
the three design parameters declared in `bandpass.h`.  `m_sampleRate` is
`unsigned` in the header, modelled as ℕ. -/
structure BandPass extends BiQuad where
  m_frequency : ℝ
  m_q : ℝ
  m_sampleRate : ℕ

/-- Modelled from the spec (§4.1, algorithm steps 1-5): `calculate()`
recomputes ω, alpha and the five normalized constant-skirt-gain band-pass
coefficients from the current parameter triple and installs them into the
base filter. -/
noncomputable def BandPass.calculate (s : BandPass) : BandPass :=
  let omega := 2 * Real.pi * s.m_frequency / (s.m_sampleRate : ℝ)
  let alpha := Real.sin omega / (2 * s.m_q)
  let a0 := 1 + alpha
  let newBase := s.toBiQuad.setCoefficients (s.m_q * alpha / a0) (0 / a0)
      (-(s.m_q * alpha) / a0) (-2 * Real.cos omega / a0) ((1 - alpha) / a0)
  { s with toBiQuad := newBase }

/-- Modelled from the spec (§4.1 `construct`): the constructor stores the
three parameters, with zeroed base-filter state, then performs the same
computation as `calculate()`. -/
noncomputable def BandPass.construct (frequency q : ℝ) (sampleRate : ℕ) : BandPass :=
  BandPass.calculate
    { b0 := 0, b1 := 0, b2 := 0, a1 := 0, a2 := 0
      x1 := 0, x2 := 0, y1 := 0, y2 := 0
      m_frequency := frequency, m_q := q, m_sampleRate := sampleRate }

/-- A default-constructed `BandPass()`: the header `bandpass.h` declares
`BandPass(float frequency = 0, float q = 1, unsigned sampleRate = 0)`,
so the defaulted call is `construct 0 1 0`. -/
noncomputable def BandPass.constructDefault : BandPass :=
  BandPass.construct 0 1 0

/-- Modelled from the spec (§4.1 `setFrequency`): stores the new
frequency, recomputes. -/
noncomputable def BandPass.setFrequency (s : BandPass) (newFrequency : ℝ) : BandPass :=
  BandPass.calculate { s with m_frequency := newFrequency }

/-- Modelled from the spec (§4.1 `setSampleRate`): stores the new sample
rate, recomputes. -/
noncomputable def BandPass.setSampleRate (s : BandPass) (newSampleRate : ℕ) : BandPass :=
  BandPass.calculate { s with m_sampleRate := newSampleRate }

/-- Modelled from the spec (§4.1 `setQ`): stores the new Q, recomputes. -/
noncomputable def BandPass.setQ (s : BandPass) (newQ : ℝ) : BandPass :=
  BandPass.calculate { s with m_q := newQ }

/-- C++ integral conversion of an arbitrary integer to `unsigned`
(32-bit): the value is reduced modulo 2^32.  This is how a negative or
out-of-range argument reaches `m_sampleRate : unsigned`. -/
def unsignedOfInt (v : ℤ) : ℕ :=
  (v % (2 ^ 32 : ℤ)).toNat

/-- A five-tuple of filter coefficients. -/
structure Coeffs where
  b0 : ℝ
  b1 : ℝ
  b2 : ℝ
  a1 : ℝ
  a2 : ℝ

/-- The constant-skirt-gain band-pass design formula exactly as the claim
states it: with ω = 2πf/fs, alpha = sin ω/(2q), a0 = 1 + alpha, the
normalized coefficients are b0 = q·alpha/a0, b1 = 0, b2 = −q·alpha/a0,
a1 = (−2·cos ω)/a0, a2 = (1 − alpha)/a0. -/
noncomputable def skirtGainDesign (f q : ℝ) (fs : ℕ) : Coeffs :=
  let omega := 2 * Real.pi * f / (fs : ℝ)
  let alpha := Real.sin omega / (2 * q)
  let a0 := 1 + alpha
  ⟨q * alpha / a0, 0, -(q * alpha / a0), -2 * Real.cos omega / a0, (1 - alpha) / a0⟩

/-- The coefficients installed in the base filter agree with the design
formula evaluated at the current parameter triple. -/
noncomputable def coeffsConsistent (s : BandPass) : Prop :=
  s.b0 = (skirtGainDesign s.m_frequency s.m_q s.m_sampleRate).b0 ∧
  s.b1 = (skirtGainDesign s.m_frequency s.m_q s.m_sampleRate).b1 ∧
  s.b2 = (skirtGainDesign s.m_frequency s.m_q s.m_sampleRate).b2 ∧
  s.a1 = (skirtGainDesign s.m_frequency s.m_q s.m_sampleRate).a1 ∧
  s.a2 = (skirtGainDesign s.m_frequency s.m_q s.m_sampleRate).a2

/-- Modelled from the spec (§7): an IEEE-754-style extended value — a
finite real, +∞, −∞, or NaN — used to express the division-by-zero
behavior of the degenerate inputs.  Rounding and signed zero are not
modelled; every denominator that can vanish in this code is a positive
zero (`unsigned` 0, `2·0`, `1 + (−1)`). -/
inductive FVal where
  | fin : ℝ → FVal
  | inf : FVal
  | neginf : FVal
  | nan : FVal

/-- An `FVal` is finite when it carries a real number. -/
def FVal.isFinite : FVal → Prop
  | .fin _ => True
  | _ => False

/-- IEEE-style negation. -/
def FVal.neg : FVal → FVal
  | .fin x => .fin (-x)
  | .inf => .neginf
  | .neginf => .inf
  | .nan => .nan

/-- IEEE-style addition: NaN propagates, ∞ + (−∞) is NaN. -/
def FVal.add : FVal → FVal → FVal
  | .nan, _ => .nan
  | _, .nan => .nan
  | .fin a, .fin b => .fin (a + b)
  | .fin _, .inf => .inf
  | .fin _, .neginf => .neginf
  | .inf, .fin _ => .inf
  | .neginf, .fin _ => .neginf
  | .inf, .inf => .inf
  | .neginf, .neginf => .neginf
  | .inf, .neginf => .nan
  | .neginf, .inf => .nan

/-- IEEE-style multiplication: NaN propagates, 0 · ∞ is NaN. -/
noncomputable def FVal.mul : FVal → FVal → FVal
  | .nan, _ => .nan
  | _, .nan => .nan
  | .fin a, .fin b => .fin (a * b)
  | .fin a, .inf => if a = 0 then .nan else if 0 < a then .inf else .neginf
  | .fin a, .neginf => if a = 0 then .nan else if 0 < a then .neginf else .inf
  | .inf, .fin b => if b = 0 then .nan else if 0 < b then .inf else .neginf
  | .neginf, .fin b => if b = 0 then .nan else if 0 < b then .neginf else .inf
  | .inf, .inf => .inf
  | .neginf, .neginf => .inf
  | .inf, .neginf => .neginf
  | .neginf, .inf => .neginf

/-- IEEE-style division (denominator zero is a positive zero): x/0 is
±∞ for x ≠ 0 and NaN for x = 0; finite/∞ is 0; ∞/∞ is NaN. -/
noncomputable def FVal.div : FVal → FVal → FVal
  | .nan, _ => .nan
  | _, .nan => .nan
  | .fin a, .fin b =>
      if b = 0 then (if a = 0 then .nan else if 0 < a then .inf else .neginf)
      else .fin (a / b)
  | .fin _, .inf => .fin 0
  | .fin _, .neginf => .fin 0
  | .inf, .fin b => if 0 ≤ b then .inf else .neginf
  | .neginf, .fin b => if 0 ≤ b then .neginf else .inf
  | .inf, .inf => .nan
  | .inf, .neginf => .nan
  | .neginf, .inf => .nan
  | .neginf, .neginf => .nan

/-- IEEE-style subtraction. -/
noncomputable def FVal.sub (a b : FVal) : FVal := a.add b.neg

/-- IEEE-style sine: NaN on any non-finite argument. -/
noncomputable def FVal.sinF : FVal → FVal
  | .fin x => .fin (Real.sin x)
  | _ => .nan

/-- IEEE-style cosine: NaN on any non-finite argument. -/
noncomputable def FVal.cosF : FVal → FVal
  | .fin x => .fin (Real.cos x)
  | _ => .nan

/-- The five coefficients as extended values. -/
structure FCoeffs where
  b0 : FVal
  b1 : FVal
  b2 : FVal
  a1 : FVal
  a2 : FVal

/-- Modelled from the spec (§4.1 with §7's permissive policy):
`calculate()` evaluated in IEEE-style extended arithmetic on the finite
parameter contents f and q and the unsigned sample rate fs. -/
noncomputable def calculateF (f q : ℝ) (fs : ℕ) : FCoeffs :=
  let omega := FVal.div (FVal.mul (FVal.mul (.fin 2) (.fin Real.pi)) (.fin f)) (.fin (fs : ℝ))
  let alpha := FVal.div (FVal.sinF omega) (FVal.mul (.fin 2) (.fin q))
  let a0 := FVal.add (.fin 1) alpha
  { b0 := FVal.div (FVal.mul (.fin q) alpha) a0
    b1 := FVal.div (.fin 0) a0
    b2 := FVal.div (FVal.neg (FVal.mul (.fin q) alpha)) a0
    a1 := FVal.div (FVal.mul (.fin (-2)) (FVal.cosF omega)) a0
    a2 := FVal.div (FVal.sub (.fin 1) alpha) a0 }

/-- A unit impulse: 1 at sample 0, 0 afterwards. -/
def impulse (n : ℕ) : ℝ := if n = 0 then 1 else 0

/-- The base-filter state after feeding the first n samples of a stream
through `process`. -/
def runFilter (bq : BiQuad) (input : ℕ → ℝ) : ℕ → BiQuad
  | 0 => bq
  | n + 1 => ((runFilter bq input n).process (input n)).1

/-- The n-th output sample produced by feeding a stream through
`process`. -/
def outputSeq (bq : BiQuad) (input : ℕ → ℝ) (n : ℕ) : ℝ :=
  ((runFilter bq input n).process (input n)).2

/-- One root of the pole polynomial z² + a1·z + a2 of the installed
feedback coefficients (the + branch of the quadratic formula). -/
noncomputable def pole1 (a1 a2 : ℝ) : ℂ :=
  if 0 ≤ a1 ^ 2 - 4 * a2 then (((-a1 + Real.sqrt (a1 ^ 2 - 4 * a2)) / 2 : ℝ) : ℂ)
  else (((-a1 / 2 : ℝ) : ℂ) + ((Real.sqrt (4 * a2 - a1 ^ 2) / 2 : ℝ) : ℂ) * Complex.I)

/-- The other root of z² + a1·z + a2 (the − branch). -/
noncomputable def pole2 (a1 a2 : ℝ) : ℂ :=
  if 0 ≤ a1 ^ 2 - 4 * a2 then (((-a1 - Real.sqrt (a1 ^ 2 - 4 * a2)) / 2 : ℝ) : ℂ)
  else (((-a1 / 2 : ℝ) : ℂ) - ((Real.sqrt (4 * a2 - a1 ^ 2) / 2 : ℝ) : ℂ) * Complex.I)

/-- The larger of the two pole magnitudes. -/
noncomputable def maxPoleMag (a1 a2 : ℝ) : ℝ :=
  max ‖pole1 a1 a2‖ ‖pole2 a1 a2‖

/-- The complete homogeneous power sum Σ pⁱ·q^(m−i): the impulse
response of the feedback (AR) part with poles p and q. -/
noncomputable def polePowSum (p q : ℂ) (m : ℕ) : ℂ :=
  ∑ i ∈ Finset.range (m + 1), p ^ i * q ^ (m - i)

/-- The impulse response of a band-pass filter: the outputs obtained by
feeding a unit impulse through the inherited `process`. -/
noncomputable def impulseResponse (s : BandPass) : ℕ → ℝ :=
  outputSeq s.toBiQuad impulse

/-- After any `calculate()` the installed coefficients agree with the
design formula at the current parameter triple. -/
theorem coeffsConsistent_calculate (s : BandPass) : coeffsConsistent s.calculate := by
  refine ⟨?_, ?_, ?_, ?_, ?_⟩ <;>
    simp [BandPass.calculate, BiQuad.setCoefficients, skirtGainDesign, coeffsConsistent, neg_div]

/-- C1: for every parameter triple with fs > 0 and q > 0, `calculate()`
installs into the base filter exactly the constant-skirt-gain band-pass
coefficients: with ω = 2πf/fs, alpha = sin ω/(2q), a0 = 1 + alpha, the
installed values are b0 = q·alpha/a0, b1 = 0, b2 = −q·alpha/a0,
a1 = (−2·cos ω)/a0, a2 = (1 − alpha)/a0. -/
theorem calculate_installs_design (s : BandPass)
    (hfs : 0 < s.m_sampleRate) (hq : 0 < s.m_q) :
    s.calculate.b0 = (skirtGainDesign s.m_frequency s.m_q s.m_sampleRate).b0 ∧
    s.calculate.b1 = (skirtGainDesign s.m_frequency s.m_q s.m_sampleRate).b1 ∧
    s.calculate.b2 = (skirtGainDesign s.m_frequency s.m_q s.m_sampleRate).b2 ∧
    s.calculate.a1 = (skirtGainDesign s.m_frequency s.m_q s.m_sampleRate).a1 ∧
    s.calculate.a2 = (skirtGainDesign s.m_frequency s.m_q s.m_sampleRate).a2 := by
  refine ⟨?_, ?_, ?_, ?_, ?_⟩ <;>
    simp [BandPass.calculate, BiQuad.setCoefficients, skirtGainDesign, neg_div]

/-- Witness for C1 at the concrete state (frequency 1000, q 1,
sample rate 48000). -/
theorem calculate_installs_design_witness :
    0 < (48000 : ℕ) ∧ 0 < (1 : ℝ) ∧
    (BandPass.calculate
        { b0 := 0, b1 := 0, b2 := 0, a1 := 0, a2 := 0
          x1 := 0, x2 := 0, y1 := 0, y2 := 0
          m_frequency := 1000, m_q := 1, m_sampleRate := 48000 }).b0 =
      (skirtGainDesign 1000 1 48000).b0 :=
  ⟨by norm_num, by norm_num,
    (calculate_installs_design
      { b0 := 0, b1 := 0, b2 := 0, a1 := 0, a2 := 0
        x1 := 0, x2 := 0, y1 := 0, y2 := 0
        m_frequency := 1000, m_q := 1, m_sampleRate := 48000 }
      (by norm_num) (by norm_num)).1⟩

/-- C3: for every parameter triple, the coefficients produced by
`calculate()` satisfy b1 = 0 exactly and b2 = −b0 exactly. -/
theorem calculate_b1_zero_b2_neg_b0 (s : BandPass) :
    s.calculate.b1 = 0 ∧ s.calculate.b2 = -s.calculate.b0 := by
  constructor <;> simp [BandPass.calculate, BiQuad.setCoefficients, neg_div]

/-- C4: `calculate()` is idempotent, and so is calling any setter again
with the value the parameter already holds: the second call yields a
state (hence a coefficient set) identical to the first. -/
theorem calculate_idempotent (s : BandPass) (v : ℝ) (n : ℕ) :
    s.calculate.calculate = s.calculate ∧
    (s.setFrequency v).setFrequency v = s.setFrequency v ∧
    (s.setQ v).setQ v = s.setQ v ∧
    (s.setSampleRate n).setSampleRate n = s.setSampleRate n :=
  ⟨rfl, rfl, rfl, rfl⟩

/-- C5: after the constructor and after every setter, the five installed
coefficients equal the design formula at the current triple; each setter
mutates exactly its own parameter and leaves the other two unchanged. -/
theorem setters_maintain_consistency (f q : ℝ) (fs : ℕ) (s : BandPass) (v : ℝ) (n : ℕ) :
    coeffsConsistent (BandPass.construct f q fs) ∧
    ((BandPass.construct f q fs).m_frequency = f ∧
      (BandPass.construct f q fs).m_q = q ∧
      (BandPass.construct f q fs).m_sampleRate = fs) ∧
    (coeffsConsistent (s.setFrequency v) ∧ (s.setFrequency v).m_frequency = v ∧
      (s.setFrequency v).m_q = s.m_q ∧ (s.setFrequency v).m_sampleRate = s.m_sampleRate) ∧
    (coeffsConsistent (s.setQ v) ∧ (s.setQ v).m_q = v ∧
      (s.setQ v).m_frequency = s.m_frequency ∧ (s.setQ v).m_sampleRate = s.m_sampleRate) ∧
    (coeffsConsistent (s.setSampleRate n) ∧ (s.setSampleRate n).m_sampleRate = n ∧
      (s.setSampleRate n).m_frequency = s.m_frequency ∧ (s.setSampleRate n).m_q = s.m_q) :=
  ⟨coeffsConsistent_calculate _, ⟨rfl, rfl, rfl⟩,
    ⟨coeffsConsistent_calculate _, rfl, rfl, rfl⟩,
    ⟨coeffsConsistent_calculate _, rfl, rfl, rfl⟩,
    ⟨coeffsConsistent_calculate _, rfl, rfl, rfl⟩⟩

/-- C7 counterexample: a default-constructed `BandPass()` does not hold
the degenerate triple (0, 0, 0): the header's default for q is 1. -/
theorem default_triple_not_all_zero :
    ¬(BandPass.constructDefault.m_frequency = 0 ∧
      BandPass.constructDefault.m_q = 0 ∧
      BandPass.constructDefault.m_sampleRate = 0) := by
  intro h
  have h1 : (1 : ℝ) = 0 := h.2.1
  norm_num at h1

/-- C7 (amended): the constructor defaults declared in `bandpass.h` are
frequency = 0, q = 1, sampleRate = 0, so a default-constructed filter
holds the triple (0, 1, 0), and its coefficients are computed once at
construction from the stored triple. -/
theorem constructDefault_state :
    BandPass.constructDefault.m_frequency = 0 ∧
    BandPass.constructDefault.m_q = 1 ∧
    BandPass.constructDefault.m_sampleRate = 0 ∧
    coeffsConsistent BandPass.constructDefault :=
  ⟨rfl, rfl, rfl, coeffsConsistent_calculate _⟩

/-- C8: `calculate()` (and hence every setter) leaves the base filter's
history registers x1, x2, y1, y2 untouched — no flush or reset — and
`calculate()` itself modifies no parameter. -/
theorem calculate_preserves_history (s : BandPass) (v : ℝ) (n : ℕ) :
    (s.calculate.x1 = s.x1 ∧ s.calculate.x2 = s.x2 ∧
      s.calculate.y1 = s.y1 ∧ s.calculate.y2 = s.y2) ∧
    (s.calculate.m_frequency = s.m_frequency ∧ s.calculate.m_q = s.m_q ∧
      s.calculate.m_sampleRate = s.m_sampleRate) ∧
    ((s.setFrequency v).x1 = s.x1 ∧ (s.setFrequency v).x2 = s.x2 ∧
      (s.setFrequency v).y1 = s.y1 ∧ (s.setFrequency v).y2 = s.y2) ∧
    ((s.setQ v).x1 = s.x1 ∧ (s.setQ v).x2 = s.x2 ∧
      (s.setQ v).y1 = s.y1 ∧ (s.setQ v).y2 = s.y2) ∧
    ((s.setSampleRate n).x1 = s.x1 ∧ (s.setSampleRate n).x2 = s.x2 ∧
      (s.setSampleRate n).y1 = s.y1 ∧ (s.setSampleRate n).y2 = s.y2) :=
  ⟨⟨rfl, rfl, rfl, rfl⟩, ⟨rfl, rfl, rfl⟩,
    ⟨rfl, rfl, rfl, rfl⟩, ⟨rfl, rfl, rfl, rfl⟩, ⟨rfl, rfl, rfl, rfl⟩⟩

/-- C10: `m_sampleRate` is an `unsigned` 32-bit integer, so storing an
arbitrary integral value (through the setter or the constructor) stores
it reduced modulo 2^32, and the stored value is always a nonnegative
integer below 2^32. -/
theorem sampleRate_unsigned_mod (v : ℤ) (s : BandPass) (f q : ℝ) :
    ((s.setSampleRate (unsignedOfInt v)).m_sampleRate : ℤ) = v % 2 ^ 32 ∧
    (s.setSampleRate (unsignedOfInt v)).m_sampleRate < 2 ^ 32 ∧
    ((BandPass.construct f q (unsignedOfInt v)).m_sampleRate : ℤ) = v % 2 ^ 32 ∧
    (BandPass.construct f q (unsignedOfInt v)).m_sampleRate < 2 ^ 32 := by
  have h1 : (0 : ℤ) ≤ v % 2 ^ 32 := Int.emod_nonneg v (by norm_num)
  have h2 : v % 2 ^ 32 < 2 ^ 32 := Int.emod_lt_of_pos v (by norm_num)
  refine ⟨Int.toNat_of_nonneg h1, ?_, Int.toNat_of_nonneg h1, ?_⟩ <;>
    · show (v % (2 ^ 32 : ℤ)).toNat < 2 ^ 32
      omega

/-- Lower numeric bound for π/24 (the angular frequency at
frequency 1000, sample rate 48000). -/
theorem pi24_gt : (0.1308996 : ℝ) < Real.pi / 24 := by
  have h := Real.pi_gt_d6
  norm_num at h ⊢
  linarith

/-- Upper numeric bound for π/24. -/
theorem pi24_lt : Real.pi / 24 < (0.1308998 : ℝ) := by
  have h := Real.pi_lt_d6
  norm_num at h ⊢
  linarith

/-- Numeric interval for sin(π/24) ≈ 0.1305262, from the cubic Taylor
polynomial with the Mathlib remainder bound. -/
theorem sin_pi24_bounds :
    (0.13050 : ℝ) ≤ Real.sin (Real.pi / 24) ∧ Real.sin (Real.pi / 24) ≤ 0.13055 := by
  have hl := pi24_gt
  have hu := pi24_lt
  set x := Real.pi / 24 with hx
  have hx0 : (0 : ℝ) < x := by linarith
  have hxabs : |x| ≤ 1 := by rw [abs_of_pos hx0]; linarith
  have hb := Real.sin_bound hxabs
  rw [abs_of_pos hx0] at hb
  rw [abs_le] at hb
  norm_num at hl hu
  constructor <;> nlinarith [hb.1, hb.2, sq_nonneg x, pow_pos hx0 3, pow_pos hx0 4,
    mul_pos hx0 hx0]

/-- Numeric interval for cos(π/24) ≈ 0.9914449, from the quadratic Taylor
polynomial with the Mathlib remainder bound. -/
theorem cos_pi24_bounds :
    (0.99141 : ℝ) ≤ Real.cos (Real.pi / 24) ∧ Real.cos (Real.pi / 24) ≤ 0.99145 := by
  have hl := pi24_gt
  have hu := pi24_lt
  set x := Real.pi / 24 with hx
  have hx0 : (0 : ℝ) < x := by linarith
  have hxabs : |x| ≤ 1 := by rw [abs_of_pos hx0]; linarith
  have hb := Real.cos_bound hxabs
  rw [abs_of_pos hx0] at hb
  rw [abs_le] at hb
  norm_num at hl hu
  constructor <;> nlinarith [hb.1, hb.2, sq_nonneg x, pow_pos hx0 3, pow_pos hx0 4]

/-- Closed forms of the five coefficients of the filter constructed with
frequency 1000, q 1, sample rate 48000: writing s = sin(π/24) and
c = cos(π/24), they are s/(2+s), 0, −s/(2+s), −4c/(2+s), (2−s)/(2+s). -/
theorem construct1000_coeffs :
    (BandPass.construct 1000 1 48000).b0 =
      Real.sin (Real.pi / 24) / (2 + Real.sin (Real.pi / 24)) ∧
    (BandPass.construct 1000 1 48000).b1 = 0 ∧
    (BandPass.construct 1000 1 48000).b2 =
      -(Real.sin (Real.pi / 24) / (2 + Real.sin (Real.pi / 24))) ∧
    (BandPass.construct 1000 1 48000).a1 =
      -(4 * Real.cos (Real.pi / 24)) / (2 + Real.sin (Real.pi / 24)) ∧
    (BandPass.construct 1000 1 48000).a2 =
      (2 - Real.sin (Real.pi / 24)) / (2 + Real.sin (Real.pi / 24)) := by
  have homega : 2 * Real.pi * (1000 : ℝ) / ((48000 : ℕ) : ℝ) = Real.pi / 24 := by
    push_cast
    ring
  have hs := sin_pi24_bounds
  have hne2 : (2 + Real.sin (Real.pi / 24)) ≠ 0 := by linarith [hs.1]
  have hne4 : (4 + Real.sin (Real.pi / 24) * 2) ≠ 0 := by linarith [hs.1]
  refine ⟨?_, ?_, ?_, ?_, ?_⟩ <;>
    · simp only [BandPass.construct, BandPass.calculate, BiQuad.setCoefficients, homega]
      field_simp [hne2, hne4]
      try ring_nf

/-- C2 counterexample: at frequency 1000, q 1, sample rate 48000 the
produced coefficients do NOT match the claimed values b0 ≈ 0.06615,
a1 ≈ −1.8448, a2 ≈ 0.8776 within 1e-4 (the true b0 is ≈ 0.06126). -/
theorem known_value_claim_false :
    ¬(|(BandPass.construct 1000 1 48000).b0 - 0.06615| ≤ 1 / 10000 ∧
      (BandPass.construct 1000 1 48000).b1 = 0 ∧
      |(BandPass.construct 1000 1 48000).b2 + 0.06615| ≤ 1 / 10000 ∧
      |(BandPass.construct 1000 1 48000).a1 + 1.8448| ≤ 1 / 10000 ∧
      |(BandPass.construct 1000 1 48000).a2 - 0.8776| ≤ 1 / 10000) := by
  intro h
  have hc := construct1000_coeffs
  have hs := sin_pi24_bounds
  have h2s : (0 : ℝ) < 2 + Real.sin (Real.pi / 24) := by linarith [hs.1]
  have hb0 := h.1
  rw [hc.1, abs_le] at hb0
  have hmul : Real.sin (Real.pi / 24) / (2 + Real.sin (Real.pi / 24)) *
      (2 + Real.sin (Real.pi / 24)) = Real.sin (Real.pi / 24) :=
    div_mul_cancel₀ _ (ne_of_gt h2s)
  nlinarith [hb0.1, hb0.2, hmul, hs.1, hs.2, h2s]

/-- C2 (amended): with frequency 1000, q 1, sample rate 48000 the
coefficients are, within an absolute tolerance of 1e-4,
b0 ≈ 0.06126, b1 = 0, b2 ≈ −0.06126, a1 ≈ −1.8614, a2 ≈ 0.8775. -/
theorem known_value_scenario :
    |(BandPass.construct 1000 1 48000).b0 - 0.06126| ≤ 1 / 10000 ∧
    (BandPass.construct 1000 1 48000).b1 = 0 ∧
    |(BandPass.construct 1000 1 48000).b2 + 0.06126| ≤ 1 / 10000 ∧
    |(BandPass.construct 1000 1 48000).a1 + 1.8614| ≤ 1 / 10000 ∧
    |(BandPass.construct 1000 1 48000).a2 - 0.8775| ≤ 1 / 10000 := by
  have hc := construct1000_coeffs
  have hs := sin_pi24_bounds
  have hcos := cos_pi24_bounds
  have h2s : (0 : ℝ) < 2 + Real.sin (Real.pi / 24) := by linarith [hs.1]
  have hmulb : Real.sin (Real.pi / 24) / (2 + Real.sin (Real.pi / 24)) *
      (2 + Real.sin (Real.pi / 24)) = Real.sin (Real.pi / 24) :=
    div_mul_cancel₀ _ (ne_of_gt h2s)
  have hmula1 : -(4 * Real.cos (Real.pi / 24)) / (2 + Real.sin (Real.pi / 24)) *
      (2 + Real.sin (Real.pi / 24)) = -(4 * Real.cos (Real.pi / 24)) :=
    div_mul_cancel₀ _ (ne_of_gt h2s)
  have hmula2 : (2 - Real.sin (Real.pi / 24)) / (2 + Real.sin (Real.pi / 24)) *
      (2 + Real.sin (Real.pi / 24)) = 2 - Real.sin (Real.pi / 24) :=
    div_mul_cancel₀ _ (ne_of_gt h2s)
  refine ⟨?_, hc.2.1, ?_, ?_, ?_⟩
  · rw [hc.1, abs_le]
    constructor <;> nlinarith [hmulb, hs.1, hs.2, h2s]
  · rw [hc.2.2.1, abs_le]
    constructor <;> nlinarith [hmulb, hs.1, hs.2, h2s]
  · rw [hc.2.2.2.1, abs_le]
    constructor <;> nlinarith [hmula1, hs.1, hs.2, hcos.1, hcos.2, h2s]
  · rw [hc.2.2.2.2, abs_le]
    constructor <;> nlinarith [hmula2, hs.1, hs.2, h2s]

/-- Dividing a finite value by zero never yields a finite value. -/
theorem FVal.div_fin_zero (x : ℝ) : ¬ (FVal.div (.fin x) (.fin 0)).isFinite := by
  simp only [FVal.div]
  split_ifs <;> simp [FVal.isFinite]

/-- Sine of a non-finite value is NaN. -/
theorem FVal.sinF_eq_nan (v : FVal) (h : ¬ v.isFinite) : v.sinF = .nan := by
  cases v <;> simp [FVal.isFinite, FVal.sinF] at h ⊢

/-- NaN divided by anything is NaN. -/
theorem FVal.div_nan_left (v : FVal) : FVal.div .nan v = .nan := by
  cases v <;> rfl

/-- Anything multiplied by NaN is NaN. -/
theorem FVal.mul_nan_right (v : FVal) : FVal.mul v .nan = .nan := by
  cases v <;> rfl

/-- Anything plus NaN is NaN. -/
theorem FVal.add_nan_right (v : FVal) : FVal.add v .nan = .nan := by
  cases v <;> rfl

/-- Zero times a non-finite value is NaN. -/
theorem FVal.mul_fin_zero_nonfin (v : FVal) (h : ¬ v.isFinite) : FVal.mul (.fin 0) v = .nan := by
  cases v <;> simp [FVal.isFinite, FVal.mul] at h ⊢

/-- Division of finite values with nonzero denominator is ordinary
division. -/
theorem FVal.div_fin_fin (a b : ℝ) (hb : b ≠ 0) :
    FVal.div (.fin a) (.fin b) = .fin (a / b) := by
  simp [FVal.div, hb]

/-- C6 counterexample: at frequency 3, q 1/2, sample rate 4 — inputs
with sampleRate ≠ 0 and q ≠ 0 — ω = 3π/2, sin ω = −1, alpha = −1 and
a0 = 0, so the b0 division divides by zero and produces −∞: a failure
mode outside the stated sampleRate = 0 / q = 0 conditions. -/
theorem no_other_failure_false :
    (calculateF 3 (1 / 2) 4).b0 = FVal.neginf ∧ (4 : ℕ) ≠ 0 ∧ (1 / 2 : ℝ) ≠ 0 := by
  refine ⟨?_, by norm_num, by norm_num⟩
  have hsin : Real.sin (2 * Real.pi * 3 / 4) = -1 := by
    have h : 2 * Real.pi * (3 : ℝ) / 4 = Real.pi / 2 + Real.pi := by ring
    rw [h, Real.sin_add_pi, Real.sin_pi_div_two]
  simp only [calculateF, FVal.mul, FVal.div, FVal.sinF, FVal.add, FVal.neg]
  norm_num [hsin]

/-- C6 (amended): `calculate()` is total (every input completes
normally); every input with sampleRate = 0 or q = 0 deterministically
produces a NaN b0 coefficient; in addition, inputs with a0 = 1 + alpha
= 0 also produce non-finite coefficients (see the counterexample), and
for all inputs with sampleRate ≠ 0, q ≠ 0 and 1 + alpha ≠ 0 all five
coefficients are finite. -/
theorem degenerate_inputs_nonfinite (f q : ℝ) (fs : ℕ) :
    (fs = 0 ∨ q = 0 → (calculateF f q fs).b0 = FVal.nan) ∧
    (fs ≠ 0 → q ≠ 0 → 1 + Real.sin (2 * Real.pi * f / (fs : ℝ)) / (2 * q) ≠ 0 →
      ((calculateF f q fs).b0.isFinite ∧ (calculateF f q fs).b1.isFinite ∧
       (calculateF f q fs).b2.isFinite ∧ (calculateF f q fs).a1.isFinite ∧
       (calculateF f q fs).a2.isFinite)) := by
  constructor
  · rintro (hfs | hq)
    · subst hfs
      have homega : ¬ (FVal.div (FVal.mul (FVal.mul (.fin 2) (.fin Real.pi)) (.fin f))
          (.fin ((0 : ℕ) : ℝ))).isFinite := by
        simp only [Nat.cast_zero]
        exact FVal.div_fin_zero _
      simp only [calculateF]
      simp only [FVal.sinF_eq_nan _ homega, FVal.div_nan_left, FVal.mul_nan_right,
        FVal.add_nan_right]
    · subst hq
      by_cases hfs : fs = 0
      · subst hfs
        have homega : ¬ (FVal.div (FVal.mul (FVal.mul (.fin 2) (.fin Real.pi)) (.fin f))
            (.fin ((0 : ℕ) : ℝ))).isFinite := by
          simp only [Nat.cast_zero]
          exact FVal.div_fin_zero _
        simp only [calculateF]
        simp only [FVal.sinF_eq_nan _ homega, FVal.div_nan_left, FVal.mul_nan_right,
          FVal.add_nan_right]
      · have hcast : ((fs : ℕ) : ℝ) ≠ 0 := Nat.cast_ne_zero.mpr hfs
        have halpha : ¬ (FVal.div
            (FVal.sinF (FVal.div (FVal.mul (FVal.mul (.fin 2) (.fin Real.pi)) (.fin f))
              (.fin (fs : ℝ))))
            (FVal.mul (.fin 2) (.fin (0 : ℝ)))).isFinite := by
          simp only [FVal.mul, FVal.sinF, FVal.div_fin_fin _ _ hcast, mul_zero]
          exact FVal.div_fin_zero _
        simp only [calculateF]
        rw [FVal.mul_fin_zero_nonfin _ halpha]
        simp only [FVal.div_nan_left]
  · intro hfs hq ha0
    have hcast : ((fs : ℕ) : ℝ) ≠ 0 := Nat.cast_ne_zero.mpr hfs
    have h2q : 2 * q ≠ 0 := mul_ne_zero two_ne_zero hq
    refine ⟨?_, ?_, ?_, ?_, ?_⟩ <;>
      · simp only [calculateF, FVal.mul, FVal.sinF, FVal.cosF, FVal.neg, FVal.sub,
          FVal.add, FVal.div_fin_fin _ _ hcast, FVal.div_fin_fin _ _ h2q,
          FVal.div_fin_fin _ _ ha0]
        simp [FVal.isFinite]

/-- Witness for C6 at the concrete inputs (0, 1, 0) (degenerate: zero
sample rate) and (0, 1, 1) (non-degenerate). -/
theorem degenerate_inputs_nonfinite_witness :
    (calculateF 0 1 0).b0 = FVal.nan ∧
    ((calculateF 0 1 1).b0.isFinite ∧ (calculateF 0 1 1).b1.isFinite ∧
     (calculateF 0 1 1).b2.isFinite ∧ (calculateF 0 1 1).a1.isFinite ∧
     (calculateF 0 1 1).a2.isFinite) :=
  ⟨(degenerate_inputs_nonfinite 0 1 0).1 (Or.inl rfl),
    (degenerate_inputs_nonfinite 0 1 1).2 (by norm_num) (by norm_num)
      (by norm_num)⟩

theorem runFilter_coeffs (bq : BiQuad) (input : ℕ → ℝ) (n : ℕ) :
    (runFilter bq input n).b0 = bq.b0 ∧ (runFilter bq input n).b1 = bq.b1 ∧
    (runFilter bq input n).b2 = bq.b2 ∧ (runFilter bq input n).a1 = bq.a1 ∧
    (runFilter bq input n).a2 = bq.a2 := by
  induction n with
  | zero => exact ⟨rfl, rfl, rfl, rfl, rfl⟩
  | succ n ih => exact ih

theorem runFilter_regs (bq : BiQuad) (n : ℕ) :
    (runFilter bq impulse (n + 2)).x1 = impulse (n + 1) ∧
    (runFilter bq impulse (n + 2)).x2 = impulse n ∧
    (runFilter bq impulse (n + 2)).y1 = outputSeq bq impulse (n + 1) ∧
    (runFilter bq impulse (n + 2)).y2 = outputSeq bq impulse n := by
  induction n with
  | zero => exact ⟨rfl, rfl, rfl, rfl⟩
  | succ n ih =>
      exact ⟨rfl, ih.1, rfl, ih.2.2.1⟩

theorem outputSeq_zero (bq : BiQuad)
    (hx1 : bq.x1 = 0) (hx2 : bq.x2 = 0) (hy1 : bq.y1 = 0) (hy2 : bq.y2 = 0) :
    outputSeq bq impulse 0 = bq.b0 := by
  simp [outputSeq, runFilter, BiQuad.process, impulse, hx1, hx2, hy1, hy2]

theorem outputSeq_one (bq : BiQuad)
    (hx1 : bq.x1 = 0) (hx2 : bq.x2 = 0) (hy1 : bq.y1 = 0) (hy2 : bq.y2 = 0) :
    outputSeq bq impulse 1 = bq.b1 - bq.a1 * outputSeq bq impulse 0 := by
  simp [outputSeq, runFilter, BiQuad.process, impulse, hx1, hx2, hy1, hy2]

theorem outputSeq_two (bq : BiQuad)
    (hx1 : bq.x1 = 0) (hx2 : bq.x2 = 0) (hy1 : bq.y1 = 0) (hy2 : bq.y2 = 0) :
    outputSeq bq impulse 2 = bq.b2 - bq.a1 * outputSeq bq impulse 1 -
      bq.a2 * outputSeq bq impulse 0 := by
  simp [outputSeq, runFilter, BiQuad.process, impulse, hx1, hx2, hy1, hy2]
  try ring

theorem outputSeq_rec (bq : BiQuad) (n : ℕ) :
    outputSeq bq impulse (n + 3) = -bq.a1 * outputSeq bq impulse (n + 2) -
      bq.a2 * outputSeq bq impulse (n + 1) := by
  have hregs := runFilter_regs bq (n + 1)
  have hco := runFilter_coeffs bq impulse (n + 3)
  show ((runFilter bq impulse (n + 3)).process (impulse (n + 3))).2 = _
  rw [BiQuad.process]
  simp only [hregs.1, hregs.2.1, hregs.2.2.1, hregs.2.2.2, hco.1, hco.2.1, hco.2.2.1,
    hco.2.2.2.1, hco.2.2.2.2, impulse]
  norm_num

theorem pole_add (a1 a2 : ℝ) : pole1 a1 a2 + pole2 a1 a2 = -(a1 : ℂ) := by
  unfold pole1 pole2
  split_ifs <;> · push_cast; ring

theorem pole_mul (a1 a2 : ℝ) : pole1 a1 a2 * pole2 a1 a2 = (a2 : ℂ) := by
  unfold pole1 pole2
  split_ifs with hd
  · have hs : Real.sqrt (a1 ^ 2 - 4 * a2) ^ 2 = a1 ^ 2 - 4 * a2 := Real.sq_sqrt hd
    have hsC : ((Real.sqrt (a1 ^ 2 - 4 * a2) : ℝ) : ℂ) ^ 2 = (a1 : ℂ) ^ 2 - 4 * (a2 : ℂ) := by
      exact_mod_cast congrArg Complex.ofReal hs
    push_cast
    linear_combination (-(1 : ℂ) / 4) * hsC
  · have hd2 : 0 ≤ 4 * a2 - a1 ^ 2 := by linarith
    have hs : Real.sqrt (4 * a2 - a1 ^ 2) ^ 2 = 4 * a2 - a1 ^ 2 := Real.sq_sqrt hd2
    have hsC : ((Real.sqrt (4 * a2 - a1 ^ 2) : ℝ) : ℂ) ^ 2 =
        4 * (a2 : ℂ) - (a1 : ℂ) ^ 2 := by
      exact_mod_cast congrArg Complex.ofReal hs
    have hI := Complex.I_sq
    push_cast
    linear_combination (-(((Real.sqrt (4 * a2 - a1 ^ 2) : ℝ) : ℂ) ^ 2) / 4) * hI +
      ((1 : ℂ) / 4) * hsC

theorem pole_norm_lt_one (a1 a2 : ℝ)
    (h1 : 0 < 1 + a1 + a2) (h2 : 0 < 1 - a1 + a2) (h3 : a2 < 1) :
    ‖pole1 a1 a2‖ < 1 ∧ ‖pole2 a1 a2‖ < 1 := by
  have ha1l : -2 < a1 := by linarith
  have ha1u : a1 < 2 := by linarith
  unfold pole1 pole2
  split_ifs with hd
  · have hs0 : 0 ≤ Real.sqrt (a1 ^ 2 - 4 * a2) := Real.sqrt_nonneg _
    have hs : Real.sqrt (a1 ^ 2 - 4 * a2) ^ 2 = a1 ^ 2 - 4 * a2 := Real.sq_sqrt hd
    have hlt1 : Real.sqrt (a1 ^ 2 - 4 * a2) < 2 + a1 := by nlinarith [hs, hs0]
    have hlt2 : Real.sqrt (a1 ^ 2 - 4 * a2) < 2 - a1 := by nlinarith [hs, hs0]
    constructor <;>
      · rw [Complex.norm_real, Real.norm_eq_abs, abs_lt]
        constructor <;> nlinarith [hs0, hlt1, hlt2]
  · have hd2 : 0 ≤ 4 * a2 - a1 ^ 2 := by linarith
    have hs : Real.sqrt (4 * a2 - a1 ^ 2) ^ 2 = 4 * a2 - a1 ^ 2 := Real.sq_sqrt hd2
    have habs : ∀ w : ℝ, w ^ 2 = (4 * a2 - a1 ^ 2) / 4 →
        ‖(((-a1 / 2 : ℝ) : ℂ) + (w : ℂ) * Complex.I)‖ < 1 := by
      intro w hw
      have h0 : (0 : ℝ) ≤ ‖(((-a1 / 2 : ℝ) : ℂ) + (w : ℂ) * Complex.I)‖ := norm_nonneg _
      have hsq : ‖(((-a1 / 2 : ℝ) : ℂ) + (w : ℂ) * Complex.I)‖ ^ 2 = a2 := by
        rw [Complex.norm_eq_abs, Complex.sq_abs, Complex.normSq_add_mul_I]
        nlinarith [hw]
      nlinarith [h0, hsq]
    constructor
    · exact habs (Real.sqrt (4 * a2 - a1 ^ 2) / 2) (by nlinarith [hs])
    · have heq : (((-a1 / 2 : ℝ) : ℂ) - ((Real.sqrt (4 * a2 - a1 ^ 2) / 2 : ℝ) : ℂ) * Complex.I) =
          (((-a1 / 2 : ℝ) : ℂ) + ((-(Real.sqrt (4 * a2 - a1 ^ 2) / 2) : ℝ) : ℂ) * Complex.I) := by
        push_cast
        ring
      rw [heq]
      exact habs (-(Real.sqrt (4 * a2 - a1 ^ 2) / 2)) (by nlinarith [hs])

theorem pole_factor (a1 a2 : ℝ) (z : ℂ) :
    z ^ 2 + (a1 : ℂ) * z + (a2 : ℂ) = (z - pole1 a1 a2) * (z - pole2 a1 a2) := by
  have hadd := pole_add a1 a2
  have hmul := pole_mul a1 a2
  linear_combination z * hadd - hmul

theorem polePowSum_zero (p q : ℂ) : polePowSum p q 0 = 1 := by
  simp [polePowSum]

theorem polePowSum_succ_left (p q : ℂ) (m : ℕ) :
    polePowSum p q (m + 1) = q ^ (m + 1) + p * polePowSum p q m := by
  unfold polePowSum
  rw [Finset.sum_range_succ' (fun i => p ^ i * q ^ (m + 1 - i)) (m + 1)]
  rw [Finset.mul_sum]
  simp only [pow_zero, one_mul, Nat.sub_zero, pow_succ]
  rw [add_comm]
  congr 1
  apply Finset.sum_congr rfl
  intro i hi
  have hi' : i ≤ m := Nat.lt_succ_iff.mp (Finset.mem_range.mp hi)
  have : m + 1 - (i + 1) = m - i := by omega
  rw [this]
  ring

theorem polePowSum_succ_right (p q : ℂ) (m : ℕ) :
    polePowSum p q (m + 1) = p ^ (m + 1) + q * polePowSum p q m := by
  unfold polePowSum
  rw [Finset.sum_range_succ (fun i => p ^ i * q ^ (m + 1 - i)) (m + 1)]
  rw [Finset.mul_sum]
  simp only [Nat.sub_self, pow_zero, mul_one]
  rw [add_comm]
  congr 1
  apply Finset.sum_congr rfl
  intro i hi
  have hi' : i ≤ m := Nat.lt_succ_iff.mp (Finset.mem_range.mp hi)
  have : m + 1 - i = (m - i) + 1 := by omega
  rw [this, pow_succ]
  ring

theorem polePowSum_rec (p q : ℂ) (m : ℕ) :
    polePowSum p q (m + 2) = (p + q) * polePowSum p q (m + 1) - p * q * polePowSum p q m := by
  have h1 := polePowSum_succ_left p q (m + 1)
  have h2 := polePowSum_succ_left p q m
  have h3 := polePowSum_succ_right p q (m + 1)
  have h4 := polePowSum_succ_right p q m
  -- G(m+2) = q^{m+2} + p G(m+1) and G(m+1) - p G m = q^{m+1}
  calc polePowSum p q (m + 2) = q ^ (m + 2) + p * polePowSum p q (m + 1) := h1
    _ = q * (q ^ (m + 1)) + p * polePowSum p q (m + 1) := by ring
    _ = q * (polePowSum p q (m + 1) - p * polePowSum p q m) + p * polePowSum p q (m + 1) := by
        rw [h2]; ring
    _ = (p + q) * polePowSum p q (m + 1) - p * q * polePowSum p q m := by ring

theorem polePowSum_two_step (p q : ℂ) (m : ℕ) :
    polePowSum p q (m + 2) = p ^ (m + 2) + q ^ (m + 2) + p * q * polePowSum p q m := by
  have h1 := polePowSum_succ_left p q (m + 1)
  have h4 := polePowSum_succ_right p q m
  calc polePowSum p q (m + 2) = q ^ (m + 2) + p * polePowSum p q (m + 1) := h1
    _ = q ^ (m + 2) + p * (p ^ (m + 1) + q * polePowSum p q m) := by rw [h4]
    _ = p ^ (m + 2) + q ^ (m + 2) + p * q * polePowSum p q m := by ring

theorem polePowSum_norm_le (p q : ℂ) (m : ℕ) :
    ‖polePowSum p q m‖ ≤ (m + 1 : ℝ) * max ‖p‖ ‖q‖ ^ m := by
  unfold polePowSum
  refine (norm_sum_le _ _).trans ?_
  have hbound : ∀ i ∈ Finset.range (m + 1), ‖p ^ i * q ^ (m - i)‖ ≤ max ‖p‖ ‖q‖ ^ m := by
    intro i hi
    have hi' : i ≤ m := Nat.lt_succ_iff.mp (Finset.mem_range.mp hi)
    rw [norm_mul, norm_pow, norm_pow]
    have h1 : ‖p‖ ^ i ≤ max ‖p‖ ‖q‖ ^ i :=
      pow_le_pow_left₀ (norm_nonneg _) (le_max_left _ _) i
    have h2 : ‖q‖ ^ (m - i) ≤ max ‖p‖ ‖q‖ ^ (m - i) :=
      pow_le_pow_left₀ (norm_nonneg _) (le_max_right _ _) (m - i)
    have hmax0 : (0 : ℝ) ≤ max ‖p‖ ‖q‖ := le_trans (norm_nonneg p) (le_max_left _ _)
    calc ‖p‖ ^ i * ‖q‖ ^ (m - i) ≤ max ‖p‖ ‖q‖ ^ i * max ‖p‖ ‖q‖ ^ (m - i) := by
          exact mul_le_mul h1 h2 (pow_nonneg (norm_nonneg _) _) (pow_nonneg hmax0 _)
      _ = max ‖p‖ ‖q‖ ^ m := by
          rw [← pow_add]
          congr 1
          omega
  refine (Finset.sum_le_sum hbound).trans ?_
  rw [Finset.sum_const, Finset.card_range, nsmul_eq_mul]
  push_cast
  exact le_rfl

theorem count_pow_le_one (r : ℝ) (h0 : 0 ≤ r) (h1 : r ≤ 1) (m : ℕ) :
    (m + 1 : ℝ) * r ^ m * (1 - r) ≤ 1 := by
  have hsum : (m + 1 : ℝ) * r ^ m ≤ ∑ k ∈ Finset.range (m + 1), r ^ k := by
    have hterm : ∀ k ∈ Finset.range (m + 1), r ^ m ≤ r ^ k := by
      intro k hk
      exact pow_le_pow_of_le_one h0 h1 (Nat.lt_succ_iff.mp (Finset.mem_range.mp hk))
    have := Finset.card_nsmul_le_sum (Finset.range (m + 1)) (fun k => r ^ k) (r ^ m) hterm
    rw [Finset.card_range, nsmul_eq_mul] at this
    push_cast at this
    linarith
  have hgeo : (∑ k ∈ Finset.range (m + 1), r ^ k) * (1 - r) ≤ 1 := by
    have hgm := geom_sum_mul r (m + 1)
    have hpow : 0 ≤ r ^ (m + 1) := pow_nonneg h0 _
    nlinarith [hgm]
  have hr1 : 0 ≤ 1 - r := by linarith
  calc (m + 1 : ℝ) * r ^ m * (1 - r) ≤ (∑ k ∈ Finset.range (m + 1), r ^ k) * (1 - r) :=
        mul_le_mul_of_nonneg_right hsum hr1
    _ ≤ 1 := hgeo

theorem tendsto_count_pow (r : ℝ) (h0 : 0 ≤ r) (h1 : r < 1) :
    Filter.Tendsto (fun m : ℕ => (m + 1 : ℝ) * r ^ m) Filter.atTop (nhds 0) := by
  set ρ : ℝ := (1 + r) / 2 with hρ
  have hρ0 : 0 < ρ := by rw [hρ]; linarith
  have hρ1 : ρ < 1 := by rw [hρ]; linarith
  have hrρ : r < ρ := by rw [hρ]; linarith
  have hq0 : 0 ≤ r / ρ := div_nonneg h0 hρ0.le
  have hq1 : r / ρ ≤ 1 := by
    rw [div_le_one hρ0]
    linarith
  have hq1' : 0 < 1 - r / ρ := by
    have : r / ρ < 1 := by rw [div_lt_one hρ0]; exact hrρ
    linarith
  have hbound : ∀ m : ℕ, (m + 1 : ℝ) * r ^ m ≤ (1 / (1 - r / ρ)) * ρ ^ m := by
    intro m
    have hkey := count_pow_le_one (r / ρ) hq0 hq1 m
    have hsplit : (m + 1 : ℝ) * (r / ρ) ^ m ≤ 1 / (1 - r / ρ) := by
      rw [le_div_iff₀ hq1']
      linarith [hkey]
    have hpowρ : (0 : ℝ) < ρ ^ m := pow_pos hρ0 m
    have hrm : r ^ m = (r / ρ) ^ m * ρ ^ m := by
      rw [div_pow, div_mul_cancel₀]
      exact pow_ne_zero m hρ0.ne'
    rw [hrm, ← mul_assoc]
    exact mul_le_mul_of_nonneg_right hsplit hpowρ.le
  have hnonneg : ∀ m : ℕ, 0 ≤ (m + 1 : ℝ) * r ^ m := by
    intro m
    have : (0 : ℝ) ≤ (m + 1 : ℝ) := by positivity
    exact mul_nonneg this (pow_nonneg h0 m)
  have hgeo : Filter.Tendsto (fun m : ℕ => (1 / (1 - r / ρ)) * ρ ^ m) Filter.atTop (nhds 0) := by
    have := tendsto_pow_atTop_nhds_zero_of_lt_one hρ0.le hρ1
    have h2 := this.const_mul (1 / (1 - r / ρ))
    simpa using h2
  exact squeeze_zero hnonneg hbound hgeo

theorem polePowSum_one (p q : ℂ) : polePowSum p q 1 = q + p := by
  have h := polePowSum_succ_left p q 0
  rw [polePowSum_zero] at h
  simpa using h

theorem polePowSum_two (p q : ℂ) : polePowSum p q 2 = p ^ 2 + q ^ 2 + p * q := by
  have h := polePowSum_two_step p q 0
  rw [polePowSum_zero] at h
  simpa using h

theorem outputSeq_eq_polePowSum (bq : BiQuad) (p q : ℂ)
    (hx1 : bq.x1 = 0) (hx2 : bq.x2 = 0) (hy1 : bq.y1 = 0) (hy2 : bq.y2 = 0)
    (hsum : p + q = -(bq.a1 : ℂ)) (hprod : p * q = (bq.a2 : ℂ)) :
    ∀ m : ℕ, ((outputSeq bq impulse (m + 2) : ℝ) : ℂ) =
      (bq.b0 : ℂ) * polePowSum p q (m + 2) + (bq.b1 : ℂ) * polePowSum p q (m + 1) +
      (bq.b2 : ℂ) * polePowSum p q m := by
  have h0 := outputSeq_zero bq hx1 hx2 hy1 hy2
  have h1 := outputSeq_one bq hx1 hx2 hy1 hy2
  have h2 := outputSeq_two bq hx1 hx2 hy1 hy2
  have ha1 : (bq.a1 : ℂ) = -(p + q) := by linear_combination hsum
  have ha2 : (bq.a2 : ℂ) = p * q := hprod.symm
  have base0 : ((outputSeq bq impulse 2 : ℝ) : ℂ) =
      (bq.b0 : ℂ) * polePowSum p q 2 + (bq.b1 : ℂ) * polePowSum p q 1 +
      (bq.b2 : ℂ) * polePowSum p q 0 := by
    rw [h2, h1, h0]
    push_cast
    rw [polePowSum_zero, polePowSum_one, polePowSum_two, ha1, ha2]
    ring
  have base1 : ((outputSeq bq impulse 3 : ℝ) : ℂ) =
      (bq.b0 : ℂ) * polePowSum p q 3 + (bq.b1 : ℂ) * polePowSum p q 2 +
      (bq.b2 : ℂ) * polePowSum p q 1 := by
    have hr := outputSeq_rec bq 0
    norm_num at hr
    rw [hr, h2, h1, h0]
    push_cast
    have hG3 : polePowSum p q 3 = (p + q) * polePowSum p q 2 - p * q * polePowSum p q 1 :=
      polePowSum_rec p q 1
    rw [hG3, polePowSum_one, polePowSum_two, ha1, ha2]
    ring
  have step : ∀ m : ℕ,
      ((outputSeq bq impulse (m + 2) : ℝ) : ℂ) =
        (bq.b0 : ℂ) * polePowSum p q (m + 2) + (bq.b1 : ℂ) * polePowSum p q (m + 1) +
        (bq.b2 : ℂ) * polePowSum p q m →
      ((outputSeq bq impulse (m + 3) : ℝ) : ℂ) =
        (bq.b0 : ℂ) * polePowSum p q (m + 3) + (bq.b1 : ℂ) * polePowSum p q (m + 2) +
        (bq.b2 : ℂ) * polePowSum p q (m + 1) →
      ((outputSeq bq impulse (m + 4) : ℝ) : ℂ) =
        (bq.b0 : ℂ) * polePowSum p q (m + 4) + (bq.b1 : ℂ) * polePowSum p q (m + 3) +
        (bq.b2 : ℂ) * polePowSum p q (m + 2) := by
    intro m ihm ihm1
    have hr := outputSeq_rec bq (m + 1)
    have hidx1 : m + 1 + 3 = m + 4 := by omega
    have hidx2 : m + 1 + 2 = m + 3 := by omega
    rw [hidx1, hidx2] at hr
    rw [hr]
    push_cast
    rw [ihm, ihm1]
    have hG4 : polePowSum p q (m + 4) =
        (p + q) * polePowSum p q (m + 3) - p * q * polePowSum p q (m + 2) := by
      have h := polePowSum_rec p q (m + 2)
      have e1 : m + 2 + 2 = m + 4 := by omega
      have e2 : m + 2 + 1 = m + 3 := by omega
      rw [e1, e2] at h
      exact h
    have hG3 : polePowSum p q (m + 3) =
        (p + q) * polePowSum p q (m + 2) - p * q * polePowSum p q (m + 1) := by
      have h := polePowSum_rec p q (m + 1)
      have e1 : m + 1 + 2 = m + 3 := by omega
      have e2 : m + 1 + 1 = m + 2 := by omega
      rw [e1, e2] at h
      exact h
    have hG2 : polePowSum p q (m + 2) =
        (p + q) * polePowSum p q (m + 1) - p * q * polePowSum p q m :=
      polePowSum_rec p q m
    rw [hG4, hG3, hG2, ha1, ha2]
    ring
  intro m
  induction m using Nat.twoStepInduction with
  | zero => exact base0
  | one => exact base1
  | more m ih1 ih2 =>
      have hs := step m ih1 ih2
      have e1 : m + 2 + 2 = m + 4 := by omega
      have e2 : m + 2 + 1 = m + 3 := by omega
      rw [e1, e2]
      exact hs

theorem construct_coeffs (f q : ℝ) (fs : ℕ) :
    (BandPass.construct f q fs).b0 =
      q * (Real.sin (2 * Real.pi * f / (fs : ℝ)) / (2 * q)) /
        (1 + Real.sin (2 * Real.pi * f / (fs : ℝ)) / (2 * q)) ∧
    (BandPass.construct f q fs).b1 = 0 ∧
    (BandPass.construct f q fs).b2 = -(BandPass.construct f q fs).b0 ∧
    (BandPass.construct f q fs).a1 =
      -2 * Real.cos (2 * Real.pi * f / (fs : ℝ)) /
        (1 + Real.sin (2 * Real.pi * f / (fs : ℝ)) / (2 * q)) ∧
    (BandPass.construct f q fs).a2 =
      (1 - Real.sin (2 * Real.pi * f / (fs : ℝ)) / (2 * q)) /
        (1 + Real.sin (2 * Real.pi * f / (fs : ℝ)) / (2 * q)) := by
  refine ⟨rfl, ?_, ?_, rfl, rfl⟩
  · show (0 : ℝ) / _ = 0
    exact zero_div _
  · show -(q * _) / _ = -(q * _ / _)
    exact neg_div _ _

theorem construct_zero_state (f q : ℝ) (fs : ℕ) :
    (BandPass.construct f q fs).x1 = 0 ∧ (BandPass.construct f q fs).x2 = 0 ∧
    (BandPass.construct f q fs).y1 = 0 ∧ (BandPass.construct f q fs).y2 = 0 :=
  ⟨rfl, rfl, rfl, rfl⟩

theorem omega_facts (f : ℝ) (fs : ℕ) (hf : 0 < f) (hf2 : f < (fs : ℝ) / 2) :
    0 < Real.sin (2 * Real.pi * f / (fs : ℝ)) ∧
    Real.sin (2 * Real.pi * f / (fs : ℝ)) ≤ 1 ∧
    Real.cos (2 * Real.pi * f / (fs : ℝ)) < 1 ∧
    -1 < Real.cos (2 * Real.pi * f / (fs : ℝ)) := by
  have hfs0 : (0 : ℝ) < (fs : ℝ) := by nlinarith
  have hω1 : 0 < 2 * Real.pi * f / (fs : ℝ) := by
    have h2πf : 0 < 2 * Real.pi * f := by positivity
    exact div_pos h2πf hfs0
  have hω2 : 2 * Real.pi * f / (fs : ℝ) < Real.pi := by
    rw [div_lt_iff₀ hfs0]
    nlinarith [Real.pi_pos]
  refine ⟨Real.sin_pos_of_pos_of_lt_pi hω1 hω2, Real.sin_le_one _, ?_, ?_⟩
  · have h := Real.strictAntiOn_cos (Set.mem_Icc.mpr ⟨le_refl 0, Real.pi_pos.le⟩)
      (Set.mem_Icc.mpr ⟨hω1.le, hω2.le⟩) hω1
    rwa [Real.cos_zero] at h
  · have h := Real.strictAntiOn_cos (Set.mem_Icc.mpr ⟨hω1.le, hω2.le⟩)
      (Set.mem_Icc.mpr ⟨Real.pi_pos.le, le_refl Real.pi⟩) hω2
    rwa [Real.cos_pi] at h

theorem schur_facts (s c α : ℝ) (hs1 : 0 < s) (hs2 : s ≤ 1)
    (hc1 : c < 1) (hc2 : -1 < c) (hα : 0 < α) :
    0 < 1 + -2 * c / (1 + α) + (1 - α) / (1 + α) ∧
    0 < 1 - -2 * c / (1 + α) + (1 - α) / (1 + α) ∧
    (1 - α) / (1 + α) < 1 ∧
    0 < s / 2 / (1 + α) ∧
    s / 2 / (1 + α) ≤ 1 ∧
    2 * (s / 2 / (1 + α)) + s / 2 / (1 + α) * (1 - (1 - α) / (1 + α)) ≤ 1 ∧
    |-2 * c / (1 + α)| * (s / 2 / (1 + α)) ≤ 1 := by
  have hcabs : |c| ≤ 1 := abs_le.mpr ⟨hc2.le, hc1.le⟩
  have ha0p : (0 : ℝ) < 1 + α := by linarith
  refine ⟨?_, ?_, ?_, ?_, ?_, ?_, ?_⟩
  · have e : 1 + -2 * c / (1 + α) + (1 - α) / (1 + α) = (2 - 2 * c) / (1 + α) := by
      field_simp
      ring
    rw [e]
    exact div_pos (by linarith) ha0p
  · have e : 1 - -2 * c / (1 + α) + (1 - α) / (1 + α) = (2 + 2 * c) / (1 + α) := by
      field_simp
      ring
    rw [e]
    exact div_pos (by linarith) ha0p
  · rw [div_lt_one ha0p]
    linarith
  · exact div_pos (by linarith) ha0p
  · rw [div_le_one ha0p]
    linarith
  · have e : 2 * (s / 2 / (1 + α)) + s / 2 / (1 + α) * (1 - (1 - α) / (1 + α)) =
        (s * (1 + α) + s * α) / (1 + α) ^ 2 := by
      field_simp
      ring
    rw [e, div_le_one (by positivity)]
    nlinarith [sq_nonneg α]
  · have e1 : |(-2 : ℝ) * c / (1 + α)| = 2 * |c| / (1 + α) := by
      rw [abs_div, abs_of_pos ha0p, abs_mul]
      norm_num
    rw [e1]
    have e2 : 2 * |c| / (1 + α) * (s / 2 / (1 + α)) = |c| * s / (1 + α) ^ 2 := by
      field_simp
      ring
    rw [e2, div_le_one (by positivity)]
    nlinarith [abs_nonneg c, sq_nonneg α]

theorem biquad_stable_aux (bq : BiQuad)
    (hx1 : bq.x1 = 0) (hx2 : bq.x2 = 0) (hy1 : bq.y1 = 0) (hy2 : bq.y2 = 0)
    (hb1 : bq.b1 = 0) (hb2 : bq.b2 = -bq.b0)
    (hA : 0 < 1 + bq.a1 + bq.a2) (hB : 0 < 1 - bq.a1 + bq.a2) (hC : bq.a2 < 1)
    (hD : 0 < bq.b0) (hG : bq.b0 ≤ 1)
    (hE : 2 * bq.b0 + bq.b0 * (1 - bq.a2) ≤ 1) (hF : |bq.a1| * bq.b0 ≤ 1) :
    (∀ z : ℂ, z ^ 2 + (bq.a1 : ℂ) * z + (bq.a2 : ℂ) = 0 → ‖z‖ < 1) ∧
    (∀ n : ℕ, |outputSeq bq impulse n| ≤ 1 / (1 - maxPoleMag bq.a1 bq.a2)) ∧
    Filter.Tendsto (outputSeq bq impulse) Filter.atTop (nhds 0) := by
  have hpn := pole_norm_lt_one bq.a1 bq.a2 hA hB hC
  have hr0 : 0 ≤ maxPoleMag bq.a1 bq.a2 :=
    le_trans (norm_nonneg _) (le_max_left _ _)
  have hr1 : maxPoleMag bq.a1 bq.a2 < 1 := max_lt hpn.1 hpn.2
  have hr1' : (0 : ℝ) < 1 - maxPoleMag bq.a1 bq.a2 := by linarith
  have honele : (1 : ℝ) ≤ 1 / (1 - maxPoleMag bq.a1 bq.a2) := by
    rw [le_div_iff₀ hr1']
    nlinarith
  have hlink := outputSeq_eq_polePowSum bq (pole1 bq.a1 bq.a2) (pole2 bq.a1 bq.a2)
    hx1 hx2 hy1 hy2 (pole_add _ _) (pole_mul _ _)
  have hp1r : ‖pole1 bq.a1 bq.a2‖ ≤ maxPoleMag bq.a1 bq.a2 := le_max_left _ _
  have hp2r : ‖pole2 bq.a1 bq.a2‖ ≤ maxPoleMag bq.a1 bq.a2 := le_max_right _ _
  -- the uniform bound for indices ≥ 2
  have hbound : ∀ m : ℕ, |outputSeq bq impulse (m + 2)| ≤
      bq.b0 * (2 * maxPoleMag bq.a1 bq.a2 ^ (m + 2) +
        (1 - bq.a2) * ((m + 1 : ℝ) * maxPoleMag bq.a1 bq.a2 ^ m)) := by
    intro m
    have hval : ((outputSeq bq impulse (m + 2) : ℝ) : ℂ) =
        (bq.b0 : ℂ) * (pole1 bq.a1 bq.a2 ^ (m + 2) + pole2 bq.a1 bq.a2 ^ (m + 2) +
          ((bq.a2 : ℂ) - 1) * polePowSum (pole1 bq.a1 bq.a2) (pole2 bq.a1 bq.a2) m) := by
      rw [hlink m]
      have hb1C : (bq.b1 : ℂ) = 0 := by rw [hb1]; norm_num
      have hb2C : (bq.b2 : ℂ) = -(bq.b0 : ℂ) := by rw [hb2]; push_cast; ring
      rw [hb1C, hb2C, polePowSum_two_step, ← pole_mul bq.a1 bq.a2]
      ring
    have hcastabs : |outputSeq bq impulse (m + 2)| =
        ‖((outputSeq bq impulse (m + 2) : ℝ) : ℂ)‖ := by
      rw [Complex.norm_real, Real.norm_eq_abs]
    rw [hcastabs, hval]
    rw [norm_mul, Complex.norm_real, Real.norm_eq_abs, abs_of_pos hD]
    apply mul_le_mul_of_nonneg_left _ hD.le
    have h1 : ‖pole1 bq.a1 bq.a2 ^ (m + 2)‖ ≤ maxPoleMag bq.a1 bq.a2 ^ (m + 2) := by
      rw [norm_pow]
      exact pow_le_pow_left₀ (norm_nonneg _) hp1r _
    have h2 : ‖pole2 bq.a1 bq.a2 ^ (m + 2)‖ ≤ maxPoleMag bq.a1 bq.a2 ^ (m + 2) := by
      rw [norm_pow]
      exact pow_le_pow_left₀ (norm_nonneg _) hp2r _
    have h3 : ‖((bq.a2 : ℂ) - 1) *
        polePowSum (pole1 bq.a1 bq.a2) (pole2 bq.a1 bq.a2) m‖ ≤
        (1 - bq.a2) * ((m + 1 : ℝ) * maxPoleMag bq.a1 bq.a2 ^ m) := by
      rw [norm_mul]
      have ha2C : ((bq.a2 : ℂ) - 1) = ((bq.a2 - 1 : ℝ) : ℂ) := by push_cast; ring
      have hna : ‖((bq.a2 : ℂ) - 1)‖ = 1 - bq.a2 := by
        rw [ha2C, Complex.norm_real, Real.norm_eq_abs, abs_of_nonpos (by linarith)]
        ring
      rw [hna]
      apply mul_le_mul_of_nonneg_left _ (by linarith : (0 : ℝ) ≤ 1 - bq.a2)
      exact polePowSum_norm_le _ _ m
    calc ‖pole1 bq.a1 bq.a2 ^ (m + 2) + pole2 bq.a1 bq.a2 ^ (m + 2) +
          ((bq.a2 : ℂ) - 1) * polePowSum (pole1 bq.a1 bq.a2) (pole2 bq.a1 bq.a2) m‖ ≤
        ‖pole1 bq.a1 bq.a2 ^ (m + 2) + pole2 bq.a1 bq.a2 ^ (m + 2)‖ +
          ‖((bq.a2 : ℂ) - 1) * polePowSum (pole1 bq.a1 bq.a2) (pole2 bq.a1 bq.a2) m‖ :=
          norm_add_le _ _
      _ ≤ (‖pole1 bq.a1 bq.a2 ^ (m + 2)‖ + ‖pole2 bq.a1 bq.a2 ^ (m + 2)‖) +
          ‖((bq.a2 : ℂ) - 1) * polePowSum (pole1 bq.a1 bq.a2) (pole2 bq.a1 bq.a2) m‖ := by
          have := norm_add_le (pole1 bq.a1 bq.a2 ^ (m + 2)) (pole2 bq.a1 bq.a2 ^ (m + 2))
          linarith
      _ ≤ 2 * maxPoleMag bq.a1 bq.a2 ^ (m + 2) +
          (1 - bq.a2) * ((m + 1 : ℝ) * maxPoleMag bq.a1 bq.a2 ^ m) := by
          linarith [h1, h2, h3]
  refine ⟨?_, ?_, ?_⟩
  · intro z hz
    have hfac := pole_factor bq.a1 bq.a2 z
    rw [hfac] at hz
    rcases mul_eq_zero.mp hz with h | h
    · rw [sub_eq_zero] at h
      rw [h]
      exact hpn.1
    · rw [sub_eq_zero] at h
      rw [h]
      exact hpn.2
  · intro n
    match n with
    | 0 =>
        rw [outputSeq_zero bq hx1 hx2 hy1 hy2, abs_of_pos hD]
        linarith
    | 1 =>
        rw [outputSeq_one bq hx1 hx2 hy1 hy2, outputSeq_zero bq hx1 hx2 hy1 hy2,
          hb1, zero_sub, abs_neg, abs_mul, abs_of_pos hD]
        linarith
    | (m + 2) =>
        have hb := hbound m
        rw [le_div_iff₀ hr1']
        have hpowle : maxPoleMag bq.a1 bq.a2 ^ (m + 2) * (1 - maxPoleMag bq.a1 bq.a2) ≤ 1 := by
          have hp1 : maxPoleMag bq.a1 bq.a2 ^ (m + 2) ≤ 1 := pow_le_one₀ hr0 hr1.le
          nlinarith
        have hcount := count_pow_le_one (maxPoleMag bq.a1 bq.a2) hr0 hr1.le m
        have habs0 : (0 : ℝ) ≤ |outputSeq bq impulse (m + 2)| := abs_nonneg _
        have hstep : |outputSeq bq impulse (m + 2)| * (1 - maxPoleMag bq.a1 bq.a2) ≤
            bq.b0 * (2 * maxPoleMag bq.a1 bq.a2 ^ (m + 2) +
              (1 - bq.a2) * ((m + 1 : ℝ) * maxPoleMag bq.a1 bq.a2 ^ m)) *
              (1 - maxPoleMag bq.a1 bq.a2) :=
          mul_le_mul_of_nonneg_right hb hr1'.le
    -- expand and bound the right-hand side by 1
        have hexpand : bq.b0 * (2 * maxPoleMag bq.a1 bq.a2 ^ (m + 2) +
              (1 - bq.a2) * ((m + 1 : ℝ) * maxPoleMag bq.a1 bq.a2 ^ m)) *
              (1 - maxPoleMag bq.a1 bq.a2) =
            2 * bq.b0 * (maxPoleMag bq.a1 bq.a2 ^ (m + 2) * (1 - maxPoleMag bq.a1 bq.a2)) +
            (bq.b0 * (1 - bq.a2)) *
              ((m + 1 : ℝ) * maxPoleMag bq.a1 bq.a2 ^ m * (1 - maxPoleMag bq.a1 bq.a2)) := by
          ring
        have hfin : 2 * bq.b0 * (maxPoleMag bq.a1 bq.a2 ^ (m + 2) * (1 - maxPoleMag bq.a1 bq.a2)) +
            (bq.b0 * (1 - bq.a2)) *
              ((m + 1 : ℝ) * maxPoleMag bq.a1 bq.a2 ^ m * (1 - maxPoleMag bq.a1 bq.a2)) ≤ 1 := by
          have t1 : 2 * bq.b0 * (maxPoleMag bq.a1 bq.a2 ^ (m + 2) *
              (1 - maxPoleMag bq.a1 bq.a2)) ≤ 2 * bq.b0 :=
            mul_le_of_le_one_right (by linarith) hpowle
          have t2 : (bq.b0 * (1 - bq.a2)) *
              ((m + 1 : ℝ) * maxPoleMag bq.a1 bq.a2 ^ m * (1 - maxPoleMag bq.a1 bq.a2)) ≤
              bq.b0 * (1 - bq.a2) :=
            mul_le_of_le_one_right (by nlinarith) hcount
          linarith
        linarith [hstep, hexpand ▸ hstep, hfin]
  · have hg : Filter.Tendsto (fun m : ℕ => bq.b0 * (2 * maxPoleMag bq.a1 bq.a2 ^ (m + 2) +
        (1 - bq.a2) * ((m + 1 : ℝ) * maxPoleMag bq.a1 bq.a2 ^ m)))
        Filter.atTop (nhds 0) := by
      have heq : (fun m : ℕ => bq.b0 * (2 * maxPoleMag bq.a1 bq.a2 ^ (m + 2) +
          (1 - bq.a2) * ((m + 1 : ℝ) * maxPoleMag bq.a1 bq.a2 ^ m))) =
          (fun m : ℕ => (2 * bq.b0 * maxPoleMag bq.a1 bq.a2 ^ 2) * maxPoleMag bq.a1 bq.a2 ^ m +
            (bq.b0 * (1 - bq.a2)) * ((m + 1 : ℝ) * maxPoleMag bq.a1 bq.a2 ^ m)) := by
        funext m
        ring
      rw [heq]
      have t1 := (tendsto_pow_atTop_nhds_zero_of_lt_one hr0 hr1).const_mul
        (2 * bq.b0 * maxPoleMag bq.a1 bq.a2 ^ 2)
      have t2 := (tendsto_count_pow (maxPoleMag bq.a1 bq.a2) hr0 hr1).const_mul
        (bq.b0 * (1 - bq.a2))
      have t3 := t1.add t2
      simpa using t3
    have hshift : Filter.Tendsto (fun m : ℕ => outputSeq bq impulse (m + 2))
        Filter.atTop (nhds 0) := by
      refine squeeze_zero_norm ?_ hg
      intro m
      rw [Real.norm_eq_abs]
      exact hbound m
    exact (Filter.tendsto_add_atTop_iff_nat 2).mp hshift

/-- C9: for every valid parameter triple (q > 0, 0 < frequency <
sampleRate/2) the constructed filter is stable: every root of the pole
polynomial z² + a1·z + a2 of the installed coefficients lies strictly
inside the unit circle, the impulse response through `process` never
exceeds 1/(1 − max-pole-magnitude) in magnitude, and it tends to 0. -/
theorem impulse_response_stable (f q : ℝ) (fs : ℕ)
    (hq : 0 < q) (hf : 0 < f) (hf2 : f < (fs : ℝ) / 2) :
    (∀ z : ℂ, z ^ 2 + ((BandPass.construct f q fs).a1 : ℂ) * z +
        ((BandPass.construct f q fs).a2 : ℂ) = 0 → ‖z‖ < 1) ∧
    (∀ n : ℕ, |impulseResponse (BandPass.construct f q fs) n| ≤
        1 / (1 - maxPoleMag (BandPass.construct f q fs).a1 (BandPass.construct f q fs).a2)) ∧
    Filter.Tendsto (impulseResponse (BandPass.construct f q fs)) Filter.atTop (nhds 0) := by
  have hz := construct_zero_state f q fs
  have hcoe := construct_coeffs f q fs
  have hof := omega_facts f fs hf hf2
  have hα : 0 < Real.sin (2 * Real.pi * f / (fs : ℝ)) / (2 * q) :=
    div_pos hof.1 (by linarith)
  have hsch := schur_facts (Real.sin (2 * Real.pi * f / (fs : ℝ)))
    (Real.cos (2 * Real.pi * f / (fs : ℝ)))
    (Real.sin (2 * Real.pi * f / (fs : ℝ)) / (2 * q)) hof.1 hof.2.1 hof.2.2.1 hof.2.2.2 hα
  have hb0 : (BandPass.construct f q fs).b0 =
      Real.sin (2 * Real.pi * f / (fs : ℝ)) / 2 /
        (1 + Real.sin (2 * Real.pi * f / (fs : ℝ)) / (2 * q)) := by
    rw [hcoe.1]
    have hnum : q * (Real.sin (2 * Real.pi * f / (fs : ℝ)) / (2 * q)) =
        Real.sin (2 * Real.pi * f / (fs : ℝ)) / 2 := by
      field_simp
      ring
    rw [hnum]
  have hA : 0 < 1 + (BandPass.construct f q fs).a1 + (BandPass.construct f q fs).a2 := by
    rw [hcoe.2.2.2.1, hcoe.2.2.2.2]
    exact hsch.1
  have hB : 0 < 1 - (BandPass.construct f q fs).a1 + (BandPass.construct f q fs).a2 := by
    rw [hcoe.2.2.2.1, hcoe.2.2.2.2]
    exact hsch.2.1
  have hC : (BandPass.construct f q fs).a2 < 1 := by
    rw [hcoe.2.2.2.2]
    exact hsch.2.2.1
  have hD : 0 < (BandPass.construct f q fs).b0 := by
    rw [hb0]
    exact hsch.2.2.2.1
  have hG : (BandPass.construct f q fs).b0 ≤ 1 := by
    rw [hb0]
    exact hsch.2.2.2.2.1
  have hE : 2 * (BandPass.construct f q fs).b0 +
      (BandPass.construct f q fs).b0 * (1 - (BandPass.construct f q fs).a2) ≤ 1 := by
    rw [hb0, hcoe.2.2.2.2]
    exact hsch.2.2.2.2.2.1
  have hF : |(BandPass.construct f q fs).a1| * (BandPass.construct f q fs).b0 ≤ 1 := by
    rw [hcoe.2.2.2.1, hb0]
    exact hsch.2.2.2.2.2.2
  exact biquad_stable_aux (BandPass.construct f q fs).toBiQuad hz.1 hz.2.1 hz.2.2.1 hz.2.2.2
    hcoe.2.1 hcoe.2.2.1 hA hB hC hD hG hE hF

/-- Witness for C9 at the concrete triple (1000, 1, 48000). -/
theorem impulse_response_stable_witness :
    (0 : ℝ) < 1 ∧ (0 : ℝ) < 1000 ∧ (1000 : ℝ) < ((48000 : ℕ) : ℝ) / 2 ∧
    Filter.Tendsto (impulseResponse (BandPass.construct 1000 1 48000)) Filter.atTop (nhds 0) :=
  ⟨by norm_num, by norm_num, by norm_num,
    (impulse_response_stable 1000 1 48000 (by norm_num) (by norm_num) (by norm_num)).2.2⟩

end math
